import Mathlib

/-!
A shallow embedding of the constrained-scheduling core of `src/app.py`:
`compute_allocation_delays`, `build_product_tasks`, `apply_constraints`,
`compute_cpm`, `build_schedule`, `confidence_score`, `confidence_band`,
together with theorems settling the specification's claims about them.

Modelling conventions:
* Python dicts are association lists kept in insertion order (keys are unique
  for every dict the program builds).
* `math.ceil(a / b)` for integers `a ≥ 0`, `b > 0` is the ceiling division
  `(a + b - 1) / b`.  For every computation the program performs on its
  configured data (factory duration 14, throughput 60–120, yield 40–100,
  bugs 0–200) IEEE-754 evaluation agrees with the exact rational value, so
  the integer model is exact.
* `max(0, ...)` on integers is Nat truncated subtraction where the operands
  are Nat, `max 0` on Int otherwise.
* Python raising `KeyError`/`ValueError` is modelled with `Except` carrying
  the error names the specification assigns to those failures.
-/

namespace Nexus

instance {ε α : Type} [DecidableEq ε] [DecidableEq α] : DecidableEq (Except ε α) :=
  fun a b =>
  match a, b with
  | .error e, .error f =>
    match decEq e f with
    | isTrue h => isTrue (congrArg Except.error h)
    | isFalse h => isFalse (fun c => h (Except.error.inj c))
  | .error _, .ok _ => isFalse (fun c => Except.noConfusion c)
  | .ok _, .error _ => isFalse (fun c => Except.noConfusion c)
  | .ok x, .ok y =>
    match decEq x y with
    | isTrue h => isTrue (congrArg Except.ok h)
    | isFalse h => isFalse (fun c => h (Except.ok.inj c))

structure Task where
  duration : Nat
  deps : List String
  type : String
deriving DecidableEq

def SHARED_TASKS : List (String × Nat × List String × String) :=
  [("M5 Chip", 30, [], "component"),
   ("Neural Accelerator", 25, [], "component"),
   ("Liquid Glass Display", 28, [], "component")]

structure ProductConfig where
  margin_rank : Nat
  unique_tasks : List (String × Nat × List String × String)
deriving DecidableEq

def PRODUCT_CONFIGS : List (String × ProductConfig) :=
  [("MacBook Pro",
    ⟨1, [("Thermal System", 18, ["M5 Chip"], "component"),
         ("macOS M5 Optimization", 24, ["M5 Chip"], "software")]⟩),
   ("iPad Pro",
    ⟨2, [("M5-optimized iPadOS", 20, ["M5 Chip"], "software"),
         ("Pencil Pro Calibration", 12, ["Liquid Glass Display"], "component")]⟩),
   ("Vision Pro",
    ⟨3, [("R1 Sensor", 22, [], "component"),
         ("VisionOS Spatial UX", 26, ["M5 Chip", "R1 Sensor"], "software")]⟩)]

/-- `math.ceil(a / b)` for `a ≥ 0 < b`, as ceiling division. -/
def ceil_div (a b : Nat) : Nat := (a + b - 1) / b

/-- Association-list lookup with a default: `m.get(k, d)`. -/
def getD {α : Type} (m : List (String × α)) (k : String) (d : α) : α :=
  ((m.find? (fun p => p.1 == k)).map (fun p => p.2)).getD d

/-- `compute_allocation_delays` (src/app.py lines 99–109). -/
def compute_allocation_delays (yield_percent : Nat) : List (String × Nat) :=
  if 70 ≤ yield_percent then
    PRODUCT_CONFIGS.map (fun p => (p.1, 0))
  else
    let base_delay := ceil_div ((70 - yield_percent) * 28) 70
    [("MacBook Pro", 0), ("iPad Pro", base_delay), ("Vision Pro", base_delay + 7)]

inductive BuildError where
  | UnknownProduct
deriving DecidableEq

/-- `build_product_tasks` (src/app.py lines 112–146).  The failing dict access
`PRODUCT_CONFIGS[product_name]` is the spec's `UnknownProduct` error. -/
def build_product_tasks (product_name : String) :
    Except BuildError (List (String × Task)) :=
  match PRODUCT_CONFIGS.find? (fun p => p.1 == product_name) with
  | none => .error .UnknownProduct
  | some cfg =>
    let tasks0 : List (String × Task) :=
      SHARED_TASKS.map (fun e => (e.1, ⟨e.2.1, e.2.2.1, e.2.2.2⟩)) ++
      cfg.2.unique_tasks.map (fun e => (e.1, ⟨e.2.1, e.2.2.1, e.2.2.2⟩))
    let component_tasks :=
      (tasks0.filter (fun e => e.2.type == "component")).map (fun e => e.1)
    let software_tasks :=
      (tasks0.filter (fun e => e.2.type == "software")).map (fun e => e.1)
    .ok (tasks0 ++
      [("Factory Build", ⟨14, component_tasks, "factory"⟩),
       ("Validation & Launch Readiness",
        ⟨10, "Factory Build" :: software_tasks, "validation"⟩),
       ("Ship", ⟨0, ["Validation & Launch Readiness"], "milestone"⟩)])

/-- The loop body of `apply_constraints` (src/app.py lines 161–176).
`factory_multiplier = 100 / max(1, throughput)` is applied as
`ceil(duration * multiplier)`; `bug_delay = ceil(bug_count / 12)`;
`na_delay = ceil(max(0, 90 - throughput) / 10) * 2` with Nat subtraction
playing `max(0, ...)`; the final `max(0, int(duration))` is the identity
since every adjusted duration is a Nat. -/
def adjust_duration (product_name : String)
    (yield_percent throughput bug_count : Nat) (e : String × Task) :
    String × Task :=
  let d0 := e.2.duration
  let d1 := if e.2.type == "factory" then ceil_div (d0 * 100) (max 1 throughput) else d0
  let d2 := if e.2.type == "software" then d1 + ceil_div bug_count 12 else d1
  let d3 := if e.1 == "Neural Accelerator" then d2 + ceil_div (90 - throughput) 10 * 2 else d2
  let d4 := if e.1 == "M5 Chip" then
    d3 + getD (compute_allocation_delays yield_percent) product_name 0 else d3
  (e.1, { e.2 with duration := d4 })

/-- `apply_constraints` (src/app.py lines 149–178). -/
def apply_constraints (tasks : List (String × Task)) (product_name : String)
    (yield_percent throughput bug_count : Nat) :
    List (String × Task) × List (String × Nat) × Nat :=
  (tasks.map (adjust_duration product_name yield_percent throughput bug_count),
   compute_allocation_delays yield_percent,
   ceil_div (90 - throughput) 10 * 2)

inductive CpmError where
  | CyclicDependency
deriving DecidableEq

/-- Code-point comparison of character lists, as Python compares strings. -/
def lexLt : List Char → List Char → Bool
  | [], [] => false
  | [], _ :: _ => true
  | _ :: _, [] => false
  | a :: as, b :: bs =>
    if a.toNat < b.toNat then true
    else if b.toNat < a.toNat then false
    else lexLt as bs

def strLt (a b : String) : Bool := lexLt a.data b.data

def strLe (a b : String) : Bool := !(strLt b a)

def insertSorted (a : String) : List String → List String
  | [] => [a]
  | b :: r => if strLt b a then b :: insertSorted a r else a :: b :: r

/-- `sorted(ready)`: ascending lexicographic (code-point) order. -/
def sortNames (l : List String) : List String := l.foldr insertSorted []

/-- The `while remaining:` ready-set extraction of `compute_cpm`
(src/app.py lines 182–193).  One step schedules every task whose remaining
dependency set is empty, in sorted name order, and discards the scheduled
names from all other tasks' remaining dependency sets.  The fuel is the
number of unscheduled tasks; each successful step removes at least one. -/
def topoLoop : Nat → List (String × List String) → Except CpmError (List String)
  | 0, remaining => if remaining.isEmpty then .ok [] else .error .CyclicDependency
  | fuel + 1, remaining =>
    if remaining.isEmpty then .ok []
    else
      let ready := (remaining.filter (fun p => p.2.isEmpty)).map (fun p => p.1)
      if ready.isEmpty then .error .CyclicDependency
      else
        let rest := (remaining.filter (fun p => !p.2.isEmpty)).map
          (fun p => (p.1, p.2.filter (fun d => !ready.contains d)))
        match topoLoop fuel rest with
        | .error e => .error e
        | .ok order => .ok (sortNames ready ++ order)

/-- The successive ready sets of the extraction, in schedule order and in
each set's `remaining`-iteration order: a function of the input graph alone,
so it determines the schedule order uniquely.  One entry per `while` pass of
`compute_cpm` (src/app.py lines 185–193), before the `sorted(ready)`
tie-break is applied. -/
def readyBatches : Nat → List (String × List String) → List (List String)
  | 0, _ => []
  | fuel + 1, remaining =>
    if remaining.isEmpty then []
    else
      let ready := (remaining.filter (fun p => p.2.isEmpty)).map (fun p => p.1)
      ready :: readyBatches fuel
        ((remaining.filter (fun p => !p.2.isEmpty)).map
          (fun p => (p.1, p.2.filter (fun d => !ready.contains d))))

/-- `tasks[n]` (total, with a junk default; `compute_cpm` only looks up
names that are keys). -/
def taskD (tasks : List (String × Task)) (n : String) : Task :=
  ((tasks.find? (fun p => p.1 == n)).map (fun p => p.2)).getD ⟨0, [], ""⟩

/-- The forward pass of `compute_cpm` (src/app.py lines 195–202). -/
def fpGo (tasks : List (String × Task)) :
    List (String × Nat) → List (String × Nat) → List String →
    List (String × Nat) × List (String × Nat)
  | es, ef, [] => (es, ef)
  | es, ef, t :: rest =>
    let meta := taskD tasks t
    let start := (meta.deps.map (fun d => getD ef d 0)).foldl max 0
    let fin := start + meta.duration
    fpGo tasks (es ++ [(t, start)]) (ef ++ [(t, fin)]) rest

/-- `compute_cpm` (src/app.py lines 181–204): earliest-start and
earliest-finish maps, or `CyclicDependency`. -/
def compute_cpm (tasks : List (String × Task)) :
    Except CpmError (List (String × Nat) × List (String × Nat)) :=
  match topoLoop tasks.length (tasks.map (fun e => (e.1, e.2.deps))) with
  | .error e => .error e
  | .ok order => .ok (fpGo tasks [] [] order)

structure Row where
  product : String
  task : String
  start : Int
  finish : Int
  duration : Nat
  type : String
deriving DecidableEq

structure ScheduleResult where
  schedule : List Row
  ship_date : Int
  ship_days : Nat
  allocation_delays : List (String × Nat)
  na_delay : Nat
deriving DecidableEq

/-- `build_schedule` (src/app.py lines 207–241).  Calendar dates are day
numbers: `start_date + dt.timedelta(days=k)` is `start_date + k`. -/
def build_schedule (product_name : String) (start_date : Int)
    (yield_percent throughput bug_count : Nat) : Option ScheduleResult :=
  match build_product_tasks product_name with
  | .error _ => none
  | .ok base_tasks =>
    match apply_constraints base_tasks product_name yield_percent throughput bug_count with
    | (tasks, allocation_delays, na_delay) =>
      match compute_cpm tasks with
      | .error _ => none
      | .ok (earliest_start, earliest_finish) =>
        let rows := tasks.map (fun e =>
          ⟨product_name, e.1,
           start_date + (getD earliest_start e.1 0 : Nat),
           start_date + (getD earliest_finish e.1 0 : Nat),
           e.2.duration, e.2.type⟩)
        let ship_days := getD earliest_finish "Ship" 0
        some ⟨rows, start_date + (ship_days : Nat), ship_days, allocation_delays, na_delay⟩

/-- `round(x)` for `x = n/10`: round to nearest, ties to even (Python). -/
def round_tenths (n : Int) : Int :=
  let q := Int.fdiv n 10
  let r := n - 10 * q
  if r < 5 then q else if 5 < r then q + 1 else if q % 2 = 0 then q else q + 1

/-- `confidence_score` (src/app.py lines 244–254), computed exactly in tenths
of a point (1.2 → 12, 0.4 → 4, 0.2 → 2, 0.5 → 5). -/
def confidence_score (yield_percent throughput bug_count : Nat)
    (delay_days : Int) : Int :=
  let yield_penalty10 : Int :=
    if yield_percent < 70 then ((70 : Int) - yield_percent) * 12 + 100
    else max 0 ((85 : Int) - yield_percent) * 4
  let raw10 : Int := 1000 - yield_penalty10
    - max 0 ((100 : Int) - throughput) * 4
    - (bug_count : Int) * 2
    - max 0 delay_days * 5
  max 0 (min 100 (round_tenths raw10))

/-- `confidence_band` (src/app.py lines 257–262). -/
def confidence_band (score : Int) : String × String :=
  if 80 ≤ score then ("Green", "#2ecc71")
  else if 55 ≤ score then ("Yellow", "#f1c40f")
  else ("Red", "#e74c3c")

/-- Spec §8: the task names on which no other task depends. -/
def sinks (tasks : List (String × Task)) : List String :=
  (tasks.map (fun e => e.1)).filter (fun n =>
    tasks.all (fun p => p.1 == n || !(p.2.deps.contains n)))

/-- The built (unadjusted) task mapping of a configured product. -/
def base_tasks_of (product_name : String) : List (String × Task) :=
  match build_product_tasks product_name with
  | .error _ => []
  | .ok base => base

/-- The adjusted task mapping `build_schedule` hands to the scheduler. -/
def adjusted_tasks (product_name : String) (y t b : Nat) : List (String × Task) :=
  match build_product_tasks product_name with
  | .error _ => []
  | .ok base => (apply_constraints base product_name y t b).1

/-- Ship offset of the critical path over the nominal (unadjusted) durations,
the reference point of spec Scenario 5. -/
def nominal_ship (product_name : String) : Option Nat :=
  match build_product_tasks product_name with
  | .error _ => none
  | .ok base =>
    match compute_cpm base with
    | .error _ => none
    | .ok (_, earliest_finish) => some (getD earliest_finish "Ship" 0)

/-- A dependency edge `a → b`: some task named `a` lists `b` in its deps. -/
def dependsEdge (tasks : List (String × Task)) (a b : String) : Prop :=
  ∃ p ∈ tasks, p.1 = a ∧ b ∈ p.2.deps

instance (tasks : List (String × Task)) (a b : String) :
    Decidable (dependsEdge tasks a b) :=
  inferInstanceAs (Decidable (∃ p ∈ tasks, p.1 = a ∧ b ∈ p.2.deps))

/-- Consecutive elements of the list are dependency edges. -/
def edgeChain (tasks : List (String × Task)) : List String → Prop
  | [] => True
  | [_] => True
  | a :: b :: rest => dependsEdge tasks a b ∧ edgeChain tasks (b :: rest)

instance instDecEdgeChain (tasks : List (String × Task)) :
    ∀ l, Decidable (edgeChain tasks l)
  | [] => isTrue trivial
  | [_] => isTrue trivial
  | a :: b :: rest =>
    @instDecidableAnd _ _ _ (instDecEdgeChain tasks (b :: rest))

/-- A (directed) cycle in the dependency graph: consecutive elements are
edges, and the last has an edge back to the first. -/
def isCycle (tasks : List (String × Task)) : List String → Prop
  | [] => False
  | a :: rest =>
    edgeChain tasks (a :: rest) ∧
    dependsEdge tasks ((a :: rest).getLast (List.cons_ne_nil a rest)) a

instance (tasks : List (String × Task)) : ∀ l, Decidable (isCycle tasks l)
  | [] => isFalse (fun h => h)
  | a :: rest =>
    inferInstanceAs (Decidable (edgeChain tasks (a :: rest) ∧
      dependsEdge tasks ((a :: rest).getLast (List.cons_ne_nil a rest)) a))

/-! ### Association-list lemmas -/

theorem find?_eq_of_mem_nodup {α : Type} {m : List (String × α)}
    (hnd : (m.map Prod.fst).Nodup) {k : String} {v : α} (hmem : (k, v) ∈ m) :
    m.find? (fun p => p.1 == k) = some (k, v) := by
  induction m with
  | nil => cases hmem
  | cons a m ih =>
    rcases List.mem_cons.1 hmem with h | h
    · subst h
      exact List.find?_cons_of_pos _ (by simp)
    · have hk : k ∈ m.map Prod.fst := List.mem_map.2 ⟨(k, v), h, rfl⟩
      have hne : a.1 ≠ k := by
        rintro rfl
        exact (List.nodup_cons.1 hnd).1 hk
      rw [List.find?_cons_of_neg _ (by simpa using hne)]
      exact ih (List.nodup_cons.1 hnd).2 h

theorem getD_eq_of_mem_nodup {α : Type} {m : List (String × α)}
    (hnd : (m.map Prod.fst).Nodup) {k : String} {v : α} (hmem : (k, v) ∈ m)
    (d : α) : getD m k d = v := by
  simp [getD, find?_eq_of_mem_nodup hnd hmem]

theorem getD_append_left {α : Type} {m₁ : List (String × α)}
    (m₂ : List (String × α)) {k : String} (h : k ∈ m₁.map Prod.fst) (d : α) :
    getD (m₁ ++ m₂) k d = getD m₁ k d := by
  rcases List.mem_map.1 h with ⟨p, hp, rfl⟩
  have hs : (m₁.find? (fun q => q.1 == p.1)).isSome := by
    rw [List.find?_isSome]
    exact ⟨p, hp, by simp⟩
  rcases Option.isSome_iff_exists.1 hs with ⟨x, hx⟩
  simp [getD, List.find?_append, hx]

theorem getD_append_right {α : Type} {m₁ : List (String × α)}
    (m₂ : List (String × α)) {k : String} (h : k ∉ m₁.map Prod.fst) (d : α) :
    getD (m₁ ++ m₂) k d = getD m₂ k d := by
  have hn : m₁.find? (fun q => q.1 == k) = none := by
    rw [List.find?_eq_none]
    intro p hp hb
    exact h (List.mem_map.2 ⟨p, hp, by simpa [beq_iff_eq] using hb⟩)
  simp [getD, List.find?_append, hn]

/-! ### Lexicographic-order lemmas -/

theorem lexLt_asymm : ∀ {a b : List Char}, lexLt a b = true → lexLt b a = false
  | [], [] => by simp [lexLt]
  | [], _ :: _ => by simp [lexLt]
  | _ :: _, [] => by simp [lexLt]
  | x :: xs, y :: ys => by
    simp only [lexLt]
    by_cases h1 : x.toNat < y.toNat
    · intro _
      rw [if_neg (by omega), if_pos h1]
    · by_cases h2 : y.toNat < x.toNat
      · simp [h1, h2]
      · rw [if_neg h1, if_neg h2, if_neg h2, if_neg h1]
        exact lexLt_asymm

theorem lexLt_eq_of_not_gt : ∀ {a b : List Char},
    lexLt a b = false → lexLt b a = false → a = b
  | [], [] => by simp
  | [], _ :: _ => by simp [lexLt]
  | _ :: _, [] => by simp [lexLt]
  | x :: xs, y :: ys => by
    simp only [lexLt]
    by_cases h1 : x.toNat < y.toNat
    · simp [h1]
    · by_cases h2 : y.toNat < x.toNat
      · simp [h1, h2]
      · rw [if_neg h1, if_neg h2, if_neg h2, if_neg h1]
        intro ha hb
        have hn : x.toNat = y.toNat := by omega
        have hx : x = y := Char.eq_of_val_eq (UInt32.ext (by
          simpa [Char.toNat] using hn))
        rw [hx, lexLt_eq_of_not_gt ha hb]

theorem lexLt_cotrans : ∀ {a c : List Char} (b : List Char),
    lexLt a c = true → lexLt a b = true ∨ lexLt b c = true
  | [], [], b => by simp [lexLt]
  | [], _ :: _, [] => by simp [lexLt]
  | [], _ :: _, _ :: _ => by simp [lexLt]
  | _ :: _, [], _ => by simp [lexLt]
  | x :: xs, z :: zs, [] => by simp [lexLt]
  | x :: xs, z :: zs, y :: ys => by
    simp only [lexLt]
    by_cases h1 : x.toNat < z.toNat
    · intro _
      by_cases h2 : x.toNat < y.toNat
      · left; rw [if_pos h2]
      · right; rw [if_pos (by omega)]
    · by_cases h2 : z.toNat < x.toNat
      · simp [h1, h2]
      · rw [if_neg h1, if_neg h2]
        intro hrec
        by_cases h3 : x.toNat < y.toNat
        · left; rw [if_pos h3]
        · by_cases h4 : y.toNat < x.toNat
          · right; rw [if_pos (by omega)]
          · rcases lexLt_cotrans ys hrec with h | h
            · left; rw [if_neg h3, if_neg h4]; exact h
            · right; rw [if_neg (by omega), if_neg (by omega)]; exact h

theorem strLt_asymm {a b : String} (h : strLt a b = true) : strLt b a = false :=
  lexLt_asymm h

theorem strLt_eq_of_not_gt {a b : String} (h1 : strLt a b = false)
    (h2 : strLt b a = false) : a = b := by
  cases a with
  | mk da =>
    cases b with
    | mk db => exact congrArg String.mk (lexLt_eq_of_not_gt h1 h2)

theorem strLe_trans {a b c : String} (h1 : strLe a b = true)
    (h2 : strLe b c = true) : strLe a c = true := by
  simp only [strLe, Bool.not_eq_true', strLt] at *
  by_contra hc
  rw [Bool.not_eq_false] at hc
  rcases lexLt_cotrans b.data hc with h | h
  · rw [h] at h2; cases h2
  · rw [h] at h1; cases h1

/-! ### Insertion-sort lemmas -/

theorem insertSorted_perm (a : String) : ∀ (l : List String),
    List.Perm (insertSorted a l) (a :: l)
  | [] => List.Perm.refl _
  | b :: r => by
    simp only [insertSorted]
    by_cases h : strLt b a = true
    · rw [if_pos h]
      exact ((insertSorted_perm a r).cons b).trans (List.Perm.swap a b r)
    · rw [if_neg h]

theorem mem_insertSorted {x a : String} {l : List String} :
    x ∈ insertSorted a l ↔ x = a ∨ x ∈ l := by
  rw [(insertSorted_perm a l).mem_iff]
  simp

theorem pairwise_insertSorted {a : String} : ∀ {l : List String},
    l.Pairwise (fun x y => strLe x y = true) →
    (insertSorted a l).Pairwise (fun x y => strLe x y = true)
  | [], _ => by simp [insertSorted]
  | b :: r, h => by
    rcases List.pairwise_cons.1 h with ⟨hb, hr⟩
    simp only [insertSorted]
    by_cases hba : strLt b a = true
    · rw [if_pos hba]
      refine List.pairwise_cons.2 ⟨?_, pairwise_insertSorted hr⟩
      intro x hx
      rcases mem_insertSorted.1 hx with rfl | hx
      · simp [strLe, strLt_asymm hba]
      · exact hb x hx
    · rw [if_neg hba]
      have hab : strLe a b = true := by
        simp [strLe, Bool.eq_false_iff.2 hba]
      refine List.pairwise_cons.2 ⟨?_, h⟩
      intro x hx
      rcases List.mem_cons.1 hx with rfl | hx
      · exact hab
      · exact strLe_trans hab (hb x hx)

theorem sortNames_perm : ∀ (l : List String), List.Perm (sortNames l) l
  | [] => List.Perm.refl _
  | a :: l => (insertSorted_perm a (sortNames l)).trans ((sortNames_perm l).cons a)

theorem mem_sortNames {x : String} {l : List String} :
    x ∈ sortNames l ↔ x ∈ l :=
  (sortNames_perm l).mem_iff

theorem nodup_sortNames {l : List String} (h : l.Nodup) : (sortNames l).Nodup :=
  (sortNames_perm l).nodup_iff.2 h

theorem pairwise_sortNames : ∀ (l : List String),
    (sortNames l).Pairwise (fun x y => strLe x y = true)
  | [] => List.Pairwise.nil
  | a :: l => pairwise_insertSorted (pairwise_sortNames l)

/-! ### Ready-set extraction: structural lemmas -/

theorem keys_rest_eq (rem : List (String × List String)) (ready : List String) :
    ((rem.filter fun p => !p.2.isEmpty).map
      (fun p => (p.1, p.2.filter (fun d => !ready.contains d)))).map Prod.fst =
    (rem.filter fun p => !p.2.isEmpty).map Prod.fst := by
  simp [List.map_map, Function.comp]

/-- A successful extraction schedules exactly the keys of `remaining`. -/
theorem topo_mem : ∀ (fuel : Nat) (rem : List (String × List String))
    (order : List String), topoLoop fuel rem = .ok order →
    ∀ n, n ∈ order ↔ n ∈ rem.map Prod.fst := by
  intro fuel
  induction fuel with
  | zero =>
    intro rem order h n
    by_cases he : rem.isEmpty
    · simp only [topoLoop, if_pos he] at h
      obtain rfl : ([] : List String) = order := Except.ok.inj h
      rw [List.isEmpty_iff.1 he]
      simp
    · simp only [topoLoop, if_neg he] at h
      cases h
  | succ fuel ih =>
    intro rem order h n
    by_cases he : rem.isEmpty
    · simp only [topoLoop, if_pos he] at h
      obtain rfl : ([] : List String) = order := Except.ok.inj h
      rw [List.isEmpty_iff.1 he]
      simp
    · simp only [topoLoop, if_neg he] at h
      by_cases hr : ((rem.filter fun p => p.2.isEmpty).map (fun p => p.1)).isEmpty
      · rw [if_pos hr] at h
        cases h
      · rw [if_neg hr] at h
        cases htl : topoLoop fuel
            ((rem.filter fun p => !p.2.isEmpty).map
              (fun p => (p.1, p.2.filter
                (fun d => !((rem.filter fun p => p.2.isEmpty).map
                  (fun p => p.1)).contains d)))) with
        | error e => rw [htl] at h; cases h
        | ok order' =>
          rw [htl] at h
          obtain rfl := Except.ok.inj h
          have hperm := (List.filter_append_perm (fun p => p.2.isEmpty) rem).map Prod.fst
          rw [List.map_append] at hperm
          have hiff := hperm.mem_iff (a := n)
          have hih := ih _ order' htl n
          rw [keys_rest_eq] at hih
          simp only [List.mem_append, mem_sortNames] at *
          constructor
          · rintro (hn | hn)
            · exact hiff.1 (Or.inl (by simpa using hn))
            · exact hiff.1 (Or.inr (hih.1 hn))
          · intro hn
            rcases hiff.2 hn with hn | hn
            · exact Or.inl (by simpa using hn)
            · exact Or.inr (hih.2 hn)

/-- A successful extraction has no duplicate names (given unique keys). -/
theorem topo_nodup : ∀ (fuel : Nat) (rem : List (String × List String))
    (order : List String), (rem.map Prod.fst).Nodup →
    topoLoop fuel rem = .ok order → order.Nodup := by
  intro fuel
  induction fuel with
  | zero =>
    intro rem order hnd h
    by_cases he : rem.isEmpty
    · simp only [topoLoop, if_pos he] at h
      obtain rfl : ([] : List String) = order := Except.ok.inj h
      exact List.nodup_nil
    · simp only [topoLoop, if_neg he] at h
      cases h
  | succ fuel ih =>
    intro rem order hnd h
    by_cases he : rem.isEmpty
    · simp only [topoLoop, if_pos he] at h
      obtain rfl : ([] : List String) = order := Except.ok.inj h
      exact List.nodup_nil
    · simp only [topoLoop, if_neg he] at h
      by_cases hr : ((rem.filter fun p => p.2.isEmpty).map (fun p => p.1)).isEmpty
      · rw [if_pos hr] at h
        cases h
      · rw [if_neg hr] at h
        cases htl : topoLoop fuel
            ((rem.filter fun p => !p.2.isEmpty).map
              (fun p => (p.1, p.2.filter
                (fun d => !((rem.filter fun p => p.2.isEmpty).map
                  (fun p => p.1)).contains d)))) with
        | error e => rw [htl] at h; cases h
        | ok order' =>
          rw [htl] at h
          obtain rfl := Except.ok.inj h
          have hperm := (List.filter_append_perm (fun p => p.2.isEmpty) rem).map Prod.fst
          rw [List.map_append] at hperm
          have hsplit : ((rem.filter fun p => p.2.isEmpty).map Prod.fst ++
              (rem.filter fun p => !p.2.isEmpty).map Prod.fst).Nodup :=
            hperm.nodup_iff.2 hnd
          rw [List.nodup_append] at hsplit
          obtain ⟨hnd₁, hnd₂, hdisj⟩ := hsplit
          rw [List.nodup_append]
          refine ⟨nodup_sortNames (by simpa using hnd₁), ih _ order' (by rw [keys_rest_eq]; exact hnd₂) htl, ?_⟩
          intro x hx hx'
          have hx₁ : x ∈ (rem.filter fun p => p.2.isEmpty).map Prod.fst := by
            simpa using mem_sortNames.1 hx
          have hx₂ : x ∈ (rem.filter fun p => !p.2.isEmpty).map Prod.fst := by
            have := (topo_mem fuel _ order' htl x).1 hx'
            rwa [keys_rest_eq] at this
          exact hdisj hx₁ hx₂

/-- In a successful extraction, every recorded dependency of a scheduled task
is scheduled strictly before it. -/
theorem topo_before : ∀ (fuel : Nat) (rem : List (String × List String))
    (order : List String), topoLoop fuel rem = .ok order →
    ∀ p ∈ rem, ∀ d ∈ p.2, ∃ l₁ l₂, order = l₁ ++ p.1 :: l₂ ∧ d ∈ l₁ := by
  intro fuel
  induction fuel with
  | zero =>
    intro rem order h p hp d hd
    by_cases he : rem.isEmpty
    · rw [List.isEmpty_iff.1 he] at hp
      cases hp
    · simp only [topoLoop, if_neg he] at h
      cases h
  | succ fuel ih =>
    intro rem order h p hp d hd
    by_cases he : rem.isEmpty
    · rw [List.isEmpty_iff.1 he] at hp
      cases hp
    · simp only [topoLoop, if_neg he] at h
      by_cases hr : ((rem.filter fun p => p.2.isEmpty).map (fun p => p.1)).isEmpty
      · rw [if_pos hr] at h
        cases h
      · rw [if_neg hr] at h
        cases htl : topoLoop fuel
            ((rem.filter fun p => !p.2.isEmpty).map
              (fun p => (p.1, p.2.filter
                (fun d => !((rem.filter fun p => p.2.isEmpty).map
                  (fun p => p.1)).contains d)))) with
        | error e => rw [htl] at h; cases h
        | ok order' =>
          rw [htl] at h
          obtain rfl := Except.ok.inj h
          have hpne : p.2 ≠ [] := by
            intro hnil
            rw [hnil] at hd
            cases hd
          have hpmem : p ∈ rem.filter fun q => !q.2.isEmpty := by
            rw [List.mem_filter]
            exact ⟨hp, by simp [hpne]⟩
          have hp' : (p.1, p.2.filter
              (fun d => !((rem.filter fun p => p.2.isEmpty).map
                (fun p => p.1)).contains d)) ∈
              (rem.filter fun p => !p.2.isEmpty).map
                (fun p => (p.1, p.2.filter
                  (fun d => !((rem.filter fun p => p.2.isEmpty).map
                    (fun p => p.1)).contains d))) :=
            List.mem_map.2 ⟨p, hpmem, rfl⟩
          by_cases hready : d ∈ (rem.filter fun p => p.2.isEmpty).map (fun p => p.1)
          · have hp₁ : p.1 ∈ order' := by
              rw [topo_mem fuel _ order' htl, keys_rest_eq]
              exact List.mem_map.2 ⟨p, hpmem, rfl⟩
            obtain ⟨s, t, rfl⟩ := List.append_of_mem hp₁
            refine ⟨sortNames ((rem.filter fun p => p.2.isEmpty).map (fun p => p.1)) ++ s,
              t, by rw [List.append_assoc], ?_⟩
            exact List.mem_append.2 (Or.inl (mem_sortNames.2 hready))
          · have hdf : d ∈ p.2.filter
                (fun d => !((rem.filter fun p => p.2.isEmpty).map
                  (fun p => p.1)).contains d) := by
              rw [List.mem_filter]
              refine ⟨hd, ?_⟩
              simp only [Bool.not_eq_true', ← Bool.not_eq_true]
              simpa using hready
            obtain ⟨l₁, l₂, horder, hdl⟩ := ih _ order' htl _ hp' d hdf
            refine ⟨sortNames ((rem.filter fun p => p.2.isEmpty).map (fun p => p.1)) ++ l₁,
              l₂, ?_, List.mem_append.2 (Or.inr hdl)⟩
            rw [horder, List.append_assoc]

/-! ### Forward-pass lemmas -/

theorem fpGo_shape : ∀ (order : List String) (tasks : List (String × Task))
    (es0 ef0 : List (String × Nat)),
    ∃ es' ef', fpGo tasks es0 ef0 order = (es0 ++ es', ef0 ++ ef') ∧
      es'.map Prod.fst = order ∧ ef'.map Prod.fst = order := by
  intro order
  induction order with
  | nil => exact fun tasks es0 ef0 => ⟨[], [], by simp [fpGo], rfl, rfl⟩
  | cons t rest ih =>
    intro tasks es0 ef0
    obtain ⟨es'', ef'', heq, hes, hef⟩ := ih tasks
      (es0 ++ [(t, ((taskD tasks t).deps.map (fun d => getD ef0 d 0)).foldl max 0)])
      (ef0 ++ [(t, ((taskD tasks t).deps.map (fun d => getD ef0 d 0)).foldl max 0
        + (taskD tasks t).duration)])
    refine ⟨(t, ((taskD tasks t).deps.map (fun d => getD ef0 d 0)).foldl max 0) :: es'',
      (t, ((taskD tasks t).deps.map (fun d => getD ef0 d 0)).foldl max 0
        + (taskD tasks t).duration) :: ef'', ?_, by simp [hes], by simp [hef]⟩
    show fpGo tasks
      (es0 ++ [(t, ((taskD tasks t).deps.map (fun d => getD ef0 d 0)).foldl max 0)])
      (ef0 ++ [(t, ((taskD tasks t).deps.map (fun d => getD ef0 d 0)).foldl max 0
        + (taskD tasks t).duration)]) rest = _
    rw [heq]
    simp

/-- The forward pass realises the spec equations: earliest-start is the
maximum earliest-finish over the dependencies (0 with none), earliest-finish
adds the adjusted duration, both read off the final maps. -/
theorem fpGo_spec : ∀ (order : List String) (tasks : List (String × Task))
    (es0 ef0 : List (String × Nat)),
    order.Nodup →
    (∀ k, k ∈ ef0.map Prod.fst → k ∉ order) →
    es0.map Prod.fst = ef0.map Prod.fst →
    (∀ u ∈ order, ∀ d ∈ (taskD tasks u).deps,
      d ∈ ef0.map Prod.fst ∨ ∃ l₁ l₂, order = l₁ ++ u :: l₂ ∧ d ∈ l₁) →
    ∀ n ∈ order,
      getD (fpGo tasks es0 ef0 order).1 n 0 =
        ((taskD tasks n).deps.map
          (fun d => getD (fpGo tasks es0 ef0 order).2 d 0)).foldl max 0 ∧
      getD (fpGo tasks es0 ef0 order).2 n 0 =
        getD (fpGo tasks es0 ef0 order).1 n 0 + (taskD tasks n).duration := by
  intro order
  induction order with
  | nil => intro _ _ _ _ _ _ _ n hn; cases hn
  | cons t rest ih =>
    intro tasks es0 ef0 hnd hef hkeys hprec n hn
    have htrest : t ∉ rest := (List.nodup_cons.1 hnd).1
    have htef : t ∉ ef0.map Prod.fst := by
      intro hc
      exact hef t hc (List.mem_cons_self t rest)
    have htes : t ∉ es0.map Prod.fst := by rw [hkeys]; exact htef
    have hdeps_t : ∀ d ∈ (taskD tasks t).deps, d ∈ ef0.map Prod.fst := by
      intro d hd
      rcases hprec t (List.mem_cons_self t rest) d hd with h | ⟨l₁, l₂, hsplit, hdl⟩
      · exact h
      · cases l₁ with
        | nil => cases hdl
        | cons x l₁ =>
          obtain ⟨-, hr⟩ := List.cons.inj hsplit
          have hc : t ∈ rest := by
            rw [hr]
            exact List.mem_append.2 (Or.inr (List.mem_cons_self t l₂))
          exact absurd hc htrest
    -- the single unfolding step of the pass
    have hstep : fpGo tasks es0 ef0 (t :: rest) =
        fpGo tasks
          (es0 ++ [(t, ((taskD tasks t).deps.map (fun d => getD ef0 d 0)).foldl max 0)])
          (ef0 ++ [(t, ((taskD tasks t).deps.map (fun d => getD ef0 d 0)).foldl max 0
            + (taskD tasks t).duration)]) rest := rfl
    obtain ⟨es'', ef'', hshape, hes'', hef''⟩ := fpGo_shape rest tasks
      (es0 ++ [(t, ((taskD tasks t).deps.map (fun d => getD ef0 d 0)).foldl max 0)])
      (ef0 ++ [(t, ((taskD tasks t).deps.map (fun d => getD ef0 d 0)).foldl max 0
        + (taskD tasks t).duration)])
    have hefkeys' : ∀ k, k ∈ (ef0 ++ [(t, ((taskD tasks t).deps.map
        (fun d => getD ef0 d 0)).foldl max 0 + (taskD tasks t).duration)]).map Prod.fst →
        k ∉ rest := by
      intro k hk
      rw [List.map_append, List.mem_append] at hk
      rcases hk with hk | hk
      · intro hc
        exact hef k hk (List.mem_cons_of_mem t hc)
      · simp only [List.map_cons, List.map_nil, List.mem_singleton] at hk
        rw [hk]
        exact htrest
    have hDef2 : ∀ d ∈ (taskD tasks t).deps,
        getD (fpGo tasks es0 ef0 (t :: rest)).2 d 0 = getD ef0 d 0 := by
      intro d hd
      have hdk := hdeps_t d hd
      rw [hstep, hshape]
      show getD ((ef0 ++ [(t, ((taskD tasks t).deps.map (fun d => getD ef0 d 0)).foldl max 0
        + (taskD tasks t).duration)]) ++ ef'') d 0 = getD ef0 d 0
      rw [List.append_assoc]
      exact getD_append_left _ hdk 0
    cases List.mem_cons.1 hn with
    | inl hn =>
      subst hn
      constructor
      · rw [List.map_congr_left (fun d hd => hDef2 d hd)]
        rw [hstep, hshape]
        show getD ((es0 ++ [(n, _)]) ++ es'') n 0 = _
        rw [getD_append_left _ (by simp) 0, getD_append_right _ htes 0]
        simp [getD]
      · rw [hstep, hshape]
        show getD ((ef0 ++ [(n, _)]) ++ ef'') n 0 =
          getD ((es0 ++ [(n, _)]) ++ es'') n 0 + _
        rw [getD_append_left _ (by simp) 0, getD_append_right _ htef 0,
          getD_append_left _ (by simp) 0, getD_append_right _ htes 0]
        simp [getD]
    | inr hn =>
      have hprec' : ∀ u ∈ rest, ∀ d ∈ (taskD tasks u).deps,
          d ∈ (ef0 ++ [(t, ((taskD tasks t).deps.map (fun d => getD ef0 d 0)).foldl max 0
            + (taskD tasks t).duration)]).map Prod.fst ∨
          ∃ l₁ l₂, rest = l₁ ++ u :: l₂ ∧ d ∈ l₁ := by
        intro u hu d hd
        rcases hprec u (List.mem_cons_of_mem t hu) d hd with h | ⟨l₁, l₂, hsplit, hdl⟩
        · left
          rw [List.map_append, List.mem_append]
          exact Or.inl h
        · cases l₁ with
          | nil =>
            obtain ⟨rfl, -⟩ := List.cons.inj hsplit
            exact absurd hu htrest
          | cons x l₁ =>
            obtain ⟨rfl, hr⟩ := List.cons.inj hsplit
            rcases List.mem_cons.1 hdl with rfl | hdl
            · left
              rw [List.map_append, List.mem_append]
              right
              simp
            · exact Or.inr ⟨l₁, l₂, hr, hdl⟩
      have := ih tasks
        (es0 ++ [(t, ((taskD tasks t).deps.map (fun d => getD ef0 d 0)).foldl max 0)])
        (ef0 ++ [(t, ((taskD tasks t).deps.map (fun d => getD ef0 d 0)).foldl max 0
          + (taskD tasks t).duration)])
        (List.nodup_cons.1 hnd).2 hefkeys' (by simp [hkeys]) hprec' n hn
      rw [hstep]
      exact this

/-! ### Position lemmas and the cycle descent -/

theorem indexOf_append_cons (l₁ l₂ : List String) (a : String) (ha : a ∉ l₁) :
    (l₁ ++ a :: l₂).indexOf a = l₁.length := by
  induction l₁ with
  | nil => simp
  | cons x l₁ ih =>
    have hxa : x ≠ a := by
      intro h
      exact ha (h ▸ List.mem_cons_self x l₁)
    simp only [List.cons_append, List.length_cons]
    rw [List.indexOf_cons_ne _ hxa, ih (fun h => ha (List.mem_cons_of_mem x h))]

theorem indexOf_lt_of_split {order l₁ l₂ : List String} {a b : String}
    (hnd : order.Nodup) (hsplit : order = l₁ ++ a :: l₂) (hb : b ∈ l₁) :
    order.indexOf b < order.indexOf a := by
  subst hsplit
  have ha : a ∉ l₁ := by
    rcases List.nodup_append.1 hnd with ⟨-, -, hd⟩
    intro hmem
    exact hd hmem (List.mem_cons_self a l₂)
  rw [indexOf_append_cons l₁ l₂ a ha, List.indexOf_append_of_mem hb]
  exact List.indexOf_lt_length.2 hb

theorem chain_getLast_le {tasks : List (String × Task)} {idx : String → Nat}
    (hlt : ∀ a b, dependsEdge tasks a b → idx b < idx a) :
    ∀ (a : String) (rest : List String), edgeChain tasks (a :: rest) →
      idx ((a :: rest).getLast (List.cons_ne_nil a rest)) ≤ idx a := by
  intro a rest
  induction rest generalizing a with
  | nil => intro _; simp
  | cons b rest ih =>
    intro hchain
    obtain ⟨hab, hchain⟩ := hchain
    rw [List.getLast_cons (List.cons_ne_nil b rest)]
    exact le_of_lt (lt_of_le_of_lt (ih b hchain) (hlt a b hab))

/-! ### The claims -/

/-- C2: for every task mapping with unique names on which the scheduler
succeeds (the acyclic case), every task's earliest-start equals the maximum
earliest-finish among its dependencies (0 if it has none, via `foldl max 0`),
and its earliest-finish equals its earliest-start plus its adjusted
duration. -/
theorem c2_scheduler_forward_pass (tasks : List (String × Task))
    (hnd : (tasks.map Prod.fst).Nodup) (es ef : List (String × Nat))
    (hok : compute_cpm tasks = .ok (es, ef)) :
    ∀ n t, (n, t) ∈ tasks →
      getD es n 0 = (t.deps.map (fun d => getD ef d 0)).foldl max 0 ∧
      getD ef n 0 = getD es n 0 + t.duration := by
  unfold compute_cpm at hok
  cases htl : topoLoop tasks.length (tasks.map fun e => (e.1, e.2.deps)) with
  | error e => rw [htl] at hok; cases hok
  | ok order =>
    rw [htl] at hok
    have h2 : fpGo tasks [] [] order = (es, ef) := Except.ok.inj hok
    intro n t hmem
    have htD : taskD tasks n = t := by
      simp [taskD, find?_eq_of_mem_nodup hnd hmem]
    have hkeys_proj : (tasks.map fun e => (e.1, e.2.deps)).map Prod.fst =
        tasks.map Prod.fst := by
      simp [List.map_map, Function.comp]
    have hord_nodup : order.Nodup :=
      topo_nodup _ _ _ (by rw [hkeys_proj]; exact hnd) htl
    have hnmem : n ∈ order := by
      rw [topo_mem _ _ _ htl, hkeys_proj]
      exact List.mem_map.2 ⟨(n, t), hmem, rfl⟩
    have hprec : ∀ u ∈ order, ∀ d ∈ (taskD tasks u).deps,
        d ∈ ([] : List (String × Nat)).map Prod.fst ∨
        ∃ l₁ l₂, order = l₁ ++ u :: l₂ ∧ d ∈ l₁ := by
      intro u hu d hd
      right
      have hukeys : u ∈ tasks.map Prod.fst := by
        rw [← hkeys_proj, ← topo_mem _ _ _ htl]
        exact hu
      obtain ⟨p, hp, hpu⟩ := List.mem_map.1 hukeys
      have hpmem : (u, p.2) ∈ tasks := by
        rw [← hpu]
        exact hp
      have hpD : taskD tasks u = p.2 := by
        simp [taskD, find?_eq_of_mem_nodup hnd hpmem]
      have hproj : (u, p.2.deps) ∈ tasks.map (fun e => (e.1, e.2.deps)) :=
        List.mem_map.2 ⟨p, hp, by rw [hpu]⟩
      exact topo_before _ _ _ htl _ hproj d (by rw [hpD] at hd; exact hd)
    have hmain := fpGo_spec order tasks [] [] hord_nodup (by simp) rfl hprec n hnmem
    rw [h2, htD] at hmain
    exact hmain

/-- Witness for C2 at the two-task chain `A (3 days) ← B (4 days)`. -/
theorem c2_witness :
    getD [("A", 0), ("B", 3)] "B" 0 =
      ((["A"].map (fun d => getD [("A", 3), ("B", 7)] d 0)).foldl max 0) ∧
    getD [("A", 3), ("B", 7)] "B" 0 = getD [("A", 0), ("B", 3)] "B" 0 + 4 :=
  c2_scheduler_forward_pass
    [("B", ⟨4, ["A"], "component"⟩), ("A", ⟨3, [], "component"⟩)]
    (by decide) [("A", 0), ("B", 3)] [("A", 3), ("B", 7)] (by decide)
    "B" ⟨4, ["A"], "component"⟩ (by decide)

/-- C3: for every task mapping with unique names whose dependency graph
contains a cycle, the scheduler fails with `CyclicDependency` instead of
returning a schedule. -/
theorem c3_cycle_raises (tasks : List (String × Task))
    (hnd : (tasks.map Prod.fst).Nodup) (cyc : List String)
    (hcyc : isCycle tasks cyc) :
    compute_cpm tasks = .error .CyclicDependency := by
  cases hres : compute_cpm tasks with
  | error e => cases e; rfl
  | ok pr =>
    exfalso
    unfold compute_cpm at hres
    cases htl : topoLoop tasks.length (tasks.map fun e => (e.1, e.2.deps)) with
    | error e => rw [htl] at hres; cases hres
    | ok order =>
      have hkeys_proj : (tasks.map fun e => (e.1, e.2.deps)).map Prod.fst =
          tasks.map Prod.fst := by
        simp [List.map_map, Function.comp]
      have hord_nodup : order.Nodup :=
        topo_nodup _ _ _ (by rw [hkeys_proj]; exact hnd) htl
      have hlt : ∀ a b, dependsEdge tasks a b →
          order.indexOf b < order.indexOf a := by
        intro a b hedge
        obtain ⟨p, hp, hpa, hbdeps⟩ := hedge
        have hproj : (a, p.2.deps) ∈ tasks.map (fun e => (e.1, e.2.deps)) :=
          List.mem_map.2 ⟨p, hp, by simp [hpa]⟩
        obtain ⟨l₁, l₂, hsplit, hbl⟩ := topo_before _ _ _ htl _ hproj b hbdeps
        exact indexOf_lt_of_split hord_nodup hsplit hbl
      cases cyc with
      | nil => exact hcyc
      | cons a rest =>
        obtain ⟨hchain, hback⟩ := hcyc
        have h1 := chain_getLast_le hlt a rest hchain
        have h2 := hlt _ _ hback
        omega

/-- Witness for C3 at the spec's example `A deps [B]`, `B deps [A]`. -/
theorem c3_witness :
    compute_cpm [("A", ⟨1, ["B"], "component"⟩), ("B", ⟨1, ["A"], "component"⟩)]
      = .error .CyclicDependency :=
  c3_cycle_raises
    [("A", ⟨1, ["B"], "component"⟩), ("B", ⟨1, ["A"], "component"⟩)]
    (by decide) ["A", "B"] (by decide)

/-! ### Constraint-applicator helper lemmas -/

theorem find?_map_fst_pres {α β : Type} (f : (String × α) → (String × β))
    (hf : ∀ e, (f e).1 = e.1) (tasks : List (String × α)) (n : String) :
    (tasks.map f).find? (fun q => q.1 == n) =
      (tasks.find? (fun q => q.1 == n)).map f := by
  induction tasks with
  | nil => rfl
  | cons a l ih =>
    by_cases h : a.1 = n
    · rw [List.map_cons, List.find?_cons_of_pos _ (by simp [hf, h]),
        List.find?_cons_of_pos _ (by simp [h])]
      rfl
    · rw [List.map_cons, List.find?_cons_of_neg _ (by simp [hf, h]),
        List.find?_cons_of_neg _ (by simp [h]), ih]

/-- After `apply_constraints`, the M5 Chip duration of a component task is
its input duration plus the current product's allocation delay. -/
theorem m5_duration_after_apply (tasks : List (String × Task)) (p : String)
    (y t b : Nat) (task : Task)
    (hfind : tasks.find? (fun q => q.1 == "M5 Chip") = some ("M5 Chip", task))
    (htype1 : (task.type == "factory") = false)
    (htype2 : (task.type == "software") = false) :
    (taskD ((apply_constraints tasks p y t b).1) "M5 Chip").duration =
      task.duration + getD (compute_allocation_delays y) p 0 := by
  show (taskD (tasks.map (adjust_duration p y t b)) "M5 Chip").duration = _
  unfold taskD
  rw [find?_map_fst_pres (adjust_duration p y t b) (fun e => rfl) tasks "M5 Chip",
    hfind]
  simp [adjust_duration, htype1, htype2]

theorem build_unknown {p : String} (h1 : p ≠ "MacBook Pro")
    (h2 : p ≠ "iPad Pro") (h3 : p ≠ "Vision Pro") :
    build_product_tasks p = .error .UnknownProduct := by
  unfold build_product_tasks
  have hfind : PRODUCT_CONFIGS.find? (fun q => q.1 == p) = none := by
    unfold PRODUCT_CONFIGS
    rw [List.find?_cons_of_neg _ (by simpa using Ne.symm h1),
      List.find?_cons_of_neg _ (by simpa using Ne.symm h2),
      List.find?_cons_of_neg _ (by simpa using Ne.symm h3)]
    rfl
  rw [hfind]

theorem build_ok_cases {p : String} {base : List (String × Task)}
    (h : build_product_tasks p = .ok base) :
    p = "MacBook Pro" ∨ p = "iPad Pro" ∨ p = "Vision Pro" := by
  by_contra hc
  push_neg at hc
  rw [build_unknown hc.1 hc.2.1 hc.2.2] at h
  cases h

/-- C1: allocation delays.  For yield ≥ 70% every product's delay is 0;
below 70% MacBook Pro gets 0, iPad Pro `ceil((70-y)/70*28)`, Vision Pro
that plus 7; the current product's delay lands on its M5 Chip duration;
at yield 40 the delays are 0 / 12 / 19. -/
theorem c1_yield_allocation (y t b : Nat) (hy1 : 40 ≤ y) (hy2 : y ≤ 100) :
    (70 ≤ y →
      getD (compute_allocation_delays y) "MacBook Pro" 0 = 0 ∧
      getD (compute_allocation_delays y) "iPad Pro" 0 = 0 ∧
      getD (compute_allocation_delays y) "Vision Pro" 0 = 0) ∧
    (y < 70 →
      getD (compute_allocation_delays y) "MacBook Pro" 0 = 0 ∧
      getD (compute_allocation_delays y) "iPad Pro" 0 = ceil_div ((70 - y) * 28) 70 ∧
      getD (compute_allocation_delays y) "Vision Pro" 0 = ceil_div ((70 - y) * 28) 70 + 7) ∧
    (∀ p ∈ ["MacBook Pro", "iPad Pro", "Vision Pro"],
      (taskD (adjusted_tasks p y t b) "M5 Chip").duration =
        (taskD (base_tasks_of p) "M5 Chip").duration +
          getD (compute_allocation_delays y) p 0) ∧
    (y = 40 →
      getD (compute_allocation_delays y) "MacBook Pro" 0 = 0 ∧
      getD (compute_allocation_delays y) "iPad Pro" 0 = 12 ∧
      getD (compute_allocation_delays y) "Vision Pro" 0 = 19) := by
  refine ⟨?_, ?_, ?_, ?_⟩
  · intro h
    have hc : compute_allocation_delays y = PRODUCT_CONFIGS.map (fun p => (p.1, 0)) := by
      unfold compute_allocation_delays
      rw [if_pos h]
    rw [hc]
    refine ⟨by decide, by decide, by decide⟩
  · intro h
    have hc : compute_allocation_delays y =
        [("MacBook Pro", 0), ("iPad Pro", ceil_div ((70 - y) * 28) 70),
         ("Vision Pro", ceil_div ((70 - y) * 28) 70 + 7)] := by
      unfold compute_allocation_delays
      rw [if_neg (by omega)]
    rw [hc]
    refine ⟨by simp [getD], by simp [getD], by simp [getD]⟩
  · intro p hp
    have hm5 : ∀ q : String, build_product_tasks q = .ok (base_tasks_of q) →
        (base_tasks_of q).find? (fun e => e.1 == "M5 Chip") =
          some ("M5 Chip", ⟨30, [], "component"⟩) →
        (taskD (adjusted_tasks q y t b) "M5 Chip").duration =
          (taskD (base_tasks_of q) "M5 Chip").duration +
            getD (compute_allocation_delays y) q 0 := by
      intro q hq hfind
      have hadj : adjusted_tasks q y t b =
          (apply_constraints (base_tasks_of q) q y t b).1 := by
        unfold adjusted_tasks
        rw [hq]
      rw [hadj, m5_duration_after_apply _ _ _ _ _ _ hfind rfl rfl]
      have hbase : (taskD (base_tasks_of q) "M5 Chip").duration = 30 := by
        unfold taskD
        rw [hfind]
        rfl
      rw [hbase]
    simp only [List.mem_cons, List.not_mem_nil, or_false] at hp
    rcases hp with rfl | rfl | rfl
    · exact hm5 _ rfl (by decide)
    · exact hm5 _ rfl (by decide)
    · exact hm5 _ rfl (by decide)
  · rintro rfl
    refine ⟨by decide, by decide, by decide⟩

/-- Witness for C1 at yield 40. -/
theorem c1_witness :
    getD (compute_allocation_delays 40) "MacBook Pro" 0 = 0 ∧
    getD (compute_allocation_delays 40) "iPad Pro" 0 = 12 ∧
    getD (compute_allocation_delays 40) "Vision Pro" 0 = 19 :=
  (c1_yield_allocation 40 100 25 (by decide) (by decide)).2.2.2 rfl

/-- C5: for inputs in the documented ranges and any delay the confidence
score is an integer in [0, 100] (start at 100, subtract the four penalties,
round, clamp). -/
theorem c5_confidence_bounds (y t b : Nat) (d : Int)
    (hy1 : 40 ≤ y) (hy2 : y ≤ 100) (ht1 : 60 ≤ t) (ht2 : t ≤ 120)
    (hb : b ≤ 200) :
    0 ≤ confidence_score y t b d ∧ confidence_score y t b d ≤ 100 := by
  unfold confidence_score
  exact ⟨le_max_left 0 _, max_le (by norm_num) (min_le_left _ _)⟩

/-- Witness for C5 at the baseline inputs. -/
theorem c5_witness :
    0 ≤ confidence_score 85 100 25 0 ∧ confidence_score 85 100 25 0 ≤ 100 :=
  c5_confidence_bounds 85 100 25 0 (by decide) (by decide) (by decide)
    (by decide) (by decide)

/-- The task records of a successful `build_schedule` run are emitted in the
adjusted mapping's insertion order. -/
theorem build_schedule_row_tasks (p : String) (sd : Int) (y t b : Nat)
    (r : ScheduleResult) (h : build_schedule p sd y t b = some r) :
    r.schedule.map Row.task = (adjusted_tasks p y t b).map Prod.fst := by
  unfold build_schedule at h
  cases hb : build_product_tasks p with
  | error e => rw [hb] at h; cases h
  | ok base =>
    rw [hb] at h
    simp only [apply_constraints] at h
    cases hc : compute_cpm (base.map (adjust_duration p y t b)) with
    | error e => rw [hc] at h; cases h
    | ok pr =>
      obtain ⟨es, ef⟩ := pr
      rw [hc] at h
      simp only at h
      have hr := Option.some.inj h
      have hadj : adjusted_tasks p y t b = base.map (adjust_duration p y t b) := by
        unfold adjusted_tasks
        rw [hb]
        rfl
      rw [← hr, hadj]
      simp only [List.map_map]
      exact List.map_congr_left (fun e _ => rfl)

/-- C6: the schedule output is a function of the inputs alone, pinned down
uniquely: a successful extraction order equals the flattening of the
lexicographically sorted ready batches, where `readyBatches` is computed
from the input graph (so simultaneously-ready tasks are always emitted in
ascending lexicographic name order — a descending tie-break would violate
this); `sortNames` provably sorts ascending (it permutes its input into
`strLe` order); and the task records of `build_schedule` are emitted in the
adjusted mapping's insertion order. -/
theorem c6_determinism_and_tiebreak :
    (∀ fuel rem order, topoLoop fuel rem = .ok order →
      order = ((readyBatches fuel rem).map sortNames).flatten) ∧
    (∀ l : List String, List.Perm (sortNames l) l ∧
      (sortNames l).Pairwise (fun a b => strLe a b = true)) ∧
    (∀ p sd y t b,
      (build_schedule p sd y t b).map (fun r => r.schedule.map Row.task) =
      (build_schedule p sd y t b).map
        (fun _ => (adjusted_tasks p y t b).map Prod.fst)) := by
  refine ⟨?_, fun l => ⟨sortNames_perm l, pairwise_sortNames l⟩, ?_⟩
  · intro fuel
    induction fuel with
    | zero =>
      intro rem order h
      by_cases he : rem.isEmpty
      · simp only [topoLoop, if_pos he] at h
        obtain rfl := Except.ok.inj h
        rfl
      · simp only [topoLoop, if_neg he] at h
        cases h
    | succ fuel ih =>
      intro rem order h
      by_cases he : rem.isEmpty
      · simp only [topoLoop, if_pos he] at h
        obtain rfl := Except.ok.inj h
        have hrb : readyBatches (fuel + 1) rem = [] := by
          unfold readyBatches
          rw [if_pos he]
        rw [hrb]
        rfl
      · simp only [topoLoop, if_neg he] at h
        by_cases hr : ((rem.filter fun p => p.2.isEmpty).map (fun p => p.1)).isEmpty
        · rw [if_pos hr] at h
          cases h
        · rw [if_neg hr] at h
          cases htl : topoLoop fuel
              ((rem.filter fun p => !p.2.isEmpty).map
                (fun p => (p.1, p.2.filter
                  (fun d => !((rem.filter fun p => p.2.isEmpty).map
                    (fun p => p.1)).contains d)))) with
          | error e => rw [htl] at h; cases h
          | ok order' =>
            rw [htl] at h
            obtain rfl := Except.ok.inj h
            rw [ih _ order' htl]
            simp only [readyBatches, if_neg he]
            rfl
  · intro p sd y t b
    cases hres : build_schedule p sd y t b with
    | none => rfl
    | some r =>
      show some (r.schedule.map Row.task) = some ((adjusted_tasks p y t b).map Prod.fst)
      rw [build_schedule_row_tasks p sd y t b r hres]

/-- Witness for C6: the tasks "A" and "B" are ready simultaneously and are
listed in the reverse order "B", "A" in the input; the scheduled order is
the ascending "A", "B", equal to the sorted ready-batch flattening. -/
theorem c6_witness :
    (["A", "B"] : List String) =
      ((readyBatches 2 [("B", []), ("A", [])]).map sortNames).flatten :=
  c6_determinism_and_tiebreak.1 2 [("B", []), ("A", [])] ["A", "B"] (by decide)

/-- C8: every product identifier other than the three configured products
fails with `UnknownProduct` and does not default to any configured graph. -/
theorem c8_unknown_product (p : String)
    (h : p ∉ ["MacBook Pro", "iPad Pro", "Vision Pro"]) :
    build_product_tasks p = .error .UnknownProduct := by
  simp only [List.mem_cons, List.not_mem_nil, or_false, not_or] at h
  exact build_unknown h.1 h.2.1 h.2.2

/-- Witness for C8 at the identifier "iPhone". -/
theorem c8_witness : build_product_tasks "iPhone" = .error .UnknownProduct :=
  c8_unknown_product "iPhone" (by decide)

/-- C9: below 70% yield, decreasing yield never decreases iPad Pro's or
Vision Pro's M5-Chip allocation delay, and MacBook Pro's delay is 0 for
every yield. -/
theorem c9_delay_monotonicity :
    (∀ y, getD (compute_allocation_delays y) "MacBook Pro" 0 = 0) ∧
    (∀ y1 y2, y2 < y1 → y1 < 70 →
      getD (compute_allocation_delays y1) "iPad Pro" 0 ≤
        getD (compute_allocation_delays y2) "iPad Pro" 0 ∧
      getD (compute_allocation_delays y1) "Vision Pro" 0 ≤
        getD (compute_allocation_delays y2) "Vision Pro" 0) := by
  have hlow : ∀ y, y < 70 → compute_allocation_delays y =
      [("MacBook Pro", 0), ("iPad Pro", ceil_div ((70 - y) * 28) 70),
       ("Vision Pro", ceil_div ((70 - y) * 28) 70 + 7)] := by
    intro y hy
    unfold compute_allocation_delays
    rw [if_neg (by omega)]
  constructor
  · intro y
    by_cases h : 70 ≤ y
    · have hc : compute_allocation_delays y = PRODUCT_CONFIGS.map (fun p => (p.1, 0)) := by
        unfold compute_allocation_delays
        rw [if_pos h]
      rw [hc]
      decide
    · rw [hlow y (by omega)]
      simp [getD]
  · intro y1 y2 h21 h1
    have hmono : ceil_div ((70 - y1) * 28) 70 ≤ ceil_div ((70 - y2) * 28) 70 := by
      unfold ceil_div
      exact Nat.div_le_div_right (by omega)
    rw [hlow y1 h1, hlow y2 (by omega)]
    constructor
    · simpa [getD] using hmono
    · simpa [getD] using Nat.add_le_add_right hmono 7

/-- Witness for C9 at yields 60 and 50. -/
theorem c9_witness :
    getD (compute_allocation_delays 60) "iPad Pro" 0 ≤
      getD (compute_allocation_delays 50) "iPad Pro" 0 ∧
    getD (compute_allocation_delays 60) "Vision Pro" 0 ≤
      getD (compute_allocation_delays 50) "Vision Pro" 0 :=
  c9_delay_monotonicity.2 60 50 (by decide) (by decide)

/-- C10: the Constraint Applicator returns exactly the input task names, in
order, with unchanged deps and type; only durations may differ. -/
theorem c10_frame (tasks : List (String × Task)) (p : String) (y t b : Nat) :
    ((apply_constraints tasks p y t b).1).map Prod.fst = tasks.map Prod.fst ∧
    ((apply_constraints tasks p y t b).1).map (fun e => (e.1, e.2.deps, e.2.type)) =
      tasks.map (fun e => (e.1, e.2.deps, e.2.type)) := by
  unfold apply_constraints
  constructor
  · simp only [List.map_map]
    exact List.map_congr_left (fun e _ => rfl)
  · simp only [List.map_map]
    exact List.map_congr_left (fun e _ => rfl)

/-! ### Sinks and ship-date helpers -/

theorem sinks_map_adjust (tasks : List (String × Task)) (p : String) (y t b : Nat) :
    sinks (tasks.map (adjust_duration p y t b)) = sinks tasks := by
  unfold sinks
  rw [List.map_map]
  have h1 : tasks.map (Prod.fst ∘ adjust_duration p y t b) = tasks.map Prod.fst :=
    List.map_congr_left (fun e _ => rfl)
  rw [h1]
  apply List.filter_congr
  intro n _
  rw [List.all_map]
  rfl

theorem build_schedule_ship_date (p : String) (sd : Int) (y t b : Nat)
    (r : ScheduleResult) (h : build_schedule p sd y t b = some r) :
    r.ship_date = sd + (r.ship_days : Int) := by
  unfold build_schedule at h
  cases hb : build_product_tasks p with
  | error e => rw [hb] at h; cases h
  | ok base =>
    rw [hb] at h
    simp only [apply_constraints] at h
    cases hc : compute_cpm (base.map (adjust_duration p y t b)) with
    | error e => rw [hc] at h; cases h
    | ok pr =>
      obtain ⟨es, ef⟩ := pr
      rw [hc] at h
      simp only at h
      have := Option.some.inj h
      rw [← this]

/-- C7: for every configured product and constraint tuple in the documented
ranges, the scheduler succeeds on the adjusted mapping, `earliest_finish`
of "Ship" is ≥ 0, and it equals the maximum earliest-finish over the tasks
on which no other task depends. -/
theorem c7_ship_is_max_sink (p : String)
    (hp : p ∈ ["MacBook Pro", "iPad Pro", "Vision Pro"]) (y t b : Nat)
    (hy1 : 40 ≤ y) (hy2 : y ≤ 100) (ht1 : 60 ≤ t) (ht2 : t ≤ 120) (hb : b ≤ 200) :
    ∃ es ef, compute_cpm (adjusted_tasks p y t b) = .ok (es, ef) ∧
      0 ≤ getD ef "Ship" 0 ∧
      getD ef "Ship" 0 =
        ((sinks (adjusted_tasks p y t b)).map (fun n => getD ef n 0)).foldl max 0 := by
  have main : ∀ q : String, ∀ order : List String,
      adjusted_tasks q y t b = (base_tasks_of q).map (adjust_duration q y t b) →
      topoLoop (base_tasks_of q).length
        ((base_tasks_of q).map (fun e => (e.1, e.2.deps))) = .ok order →
      sinks (base_tasks_of q) = ["Ship"] →
      ∃ es ef, compute_cpm (adjusted_tasks q y t b) = .ok (es, ef) ∧
        0 ≤ getD ef "Ship" 0 ∧
        getD ef "Ship" 0 =
          ((sinks (adjusted_tasks q y t b)).map (fun n => getD ef n 0)).foldl max 0 := by
    intro q order hadj htopo hsk
    have hproj : (adjusted_tasks q y t b).map (fun e => (e.1, e.2.deps)) =
        (base_tasks_of q).map (fun e => (e.1, e.2.deps)) := by
      rw [hadj, List.map_map]
      exact List.map_congr_left (fun e _ => rfl)
    have hlen : (adjusted_tasks q y t b).length = (base_tasks_of q).length := by
      rw [hadj]
      simp
    have hsinks : sinks (adjusted_tasks q y t b) = ["Ship"] := by
      rw [hadj, sinks_map_adjust, hsk]
    unfold compute_cpm
    rw [hlen, hproj, htopo]
    refine ⟨_, _, rfl, Nat.zero_le _, ?_⟩
    rw [hsinks]
    simp
  simp only [List.mem_cons, List.not_mem_nil, or_false] at hp
  rcases hp with rfl | rfl | rfl
  · exact main _ ["Liquid Glass Display", "M5 Chip", "Neural Accelerator",
      "Thermal System", "macOS M5 Optimization", "Factory Build",
      "Validation & Launch Readiness", "Ship"] rfl (by decide) (by decide)
  · exact main _ ["Liquid Glass Display", "M5 Chip", "Neural Accelerator",
      "M5-optimized iPadOS", "Pencil Pro Calibration", "Factory Build",
      "Validation & Launch Readiness", "Ship"] rfl (by decide) (by decide)
  · exact main _ ["Liquid Glass Display", "M5 Chip", "Neural Accelerator",
      "R1 Sensor", "Factory Build", "VisionOS Spatial UX",
      "Validation & Launch Readiness", "Ship"] rfl (by decide) (by decide)

/-- Witness for C7: MacBook Pro at the baseline constraint tuple. -/
theorem c7_witness :
    ∃ es ef, compute_cpm (adjusted_tasks "MacBook Pro" 85 100 25) = .ok (es, ef) ∧
      0 ≤ getD ef "Ship" 0 ∧
      getD ef "Ship" 0 =
        ((sinks (adjusted_tasks "MacBook Pro" 85 100 25)).map
          (fun n => getD ef n 0)).foldl max 0 :=
  c7_ship_is_max_sink "MacBook Pro" (by decide) 85 100 25 (by decide) (by decide)
    (by decide) (by decide) (by decide)

/-- C4 counterexample: at yield 100, throughput 120, bugs 0 and start day 0,
MacBook Pro ships on day 70, while the critical path over the nominal
(unadjusted) durations is 72 days — the ship date does not equal
`start_date` plus the nominal critical-path length. -/
theorem c4_counterexample :
    (build_schedule "MacBook Pro" 0 100 120 0).map ScheduleResult.ship_date = some 70 ∧
    (build_schedule "MacBook Pro" 0 100 120 0).map ScheduleResult.ship_days = some 70 ∧
    nominal_ship "MacBook Pro" = some 72 ∧ (70 : Nat) ≠ 72 :=
  ⟨by decide, by decide, by decide, by decide⟩

/-- C4 (amended): at yield 100, throughput 120, bugs 0 every delay factor
(allocation, bug, Neural-Accelerator) is zero, every ship date is
`start_date` plus the computed critical-path length, and that length uses
the factory multiplier 100/120 (Factory Build 14 → 12): 70 / 62 / 66 days,
versus 72 / 64 / 66 for the nominal-duration critical path — two days
earlier for MacBook Pro and iPad Pro, equal for Vision Pro. -/
theorem c4_scenario5 :
    (getD (compute_allocation_delays 100) "MacBook Pro" 0 = 0 ∧
     getD (compute_allocation_delays 100) "iPad Pro" 0 = 0 ∧
     getD (compute_allocation_delays 100) "Vision Pro" 0 = 0) ∧
    ceil_div 0 12 = 0 ∧ ceil_div (90 - 120) 10 * 2 = 0 ∧
    (∀ p sd y t b, (build_schedule p sd y t b).map ScheduleResult.ship_date =
      (build_schedule p sd y t b).map (fun r => sd + (r.ship_days : Int))) ∧
    ((build_schedule "MacBook Pro" 0 100 120 0).map ScheduleResult.ship_days = some 70 ∧
     (build_schedule "iPad Pro" 0 100 120 0).map ScheduleResult.ship_days = some 62 ∧
     (build_schedule "Vision Pro" 0 100 120 0).map ScheduleResult.ship_days = some 66) ∧
    (nominal_ship "MacBook Pro" = some 72 ∧ nominal_ship "iPad Pro" = some 64 ∧
     nominal_ship "Vision Pro" = some 66) := by
  refine ⟨⟨by decide, by decide, by decide⟩, by decide, by decide, ?_,
    ⟨by decide, by decide, by decide⟩, ⟨by decide, by decide, by decide⟩⟩
  intro p sd y t b
  cases hres : build_schedule p sd y t b with
  | none => rfl
  | some r =>
    show some r.ship_date = some (sd + (r.ship_days : Int))
    rw [build_schedule_ship_date p sd y t b r hres]

end Nexus
